import Mathlib

/-!
Verification of the Jane Street "Knight Moves 6" solver
(`2024-10_knight-moves-6.py`).

The program searches a fixed 6×6 grid, whose cells are partitioned into
three classes `'A'`, `'B'`, `'C'`, for two simple knight-move paths whose
fold score equals the target 2024, while choosing positive integer weights
(A, B, C) minimizing A+B+C.  The Python `PuzzleSolver` class is embedded
shallowly below: positions are `Nat × Nat` pairs, the mutable score cache
is threaded explicitly as an association list, and the recursive `dfs`
(whose recursion depth is bounded by `max_depth`) is written with an
explicit fuel argument `fuel = max_depth + 1 - depth`, so that the Python
guard `depth > max_depth` becomes the `fuel = 0` case.
-/

/-- A grid position `(row, col)`; the solver only ever builds positions with
both coordinates in `[0, 6)`. -/
abbrev Pos := Nat × Nat

/-- `self.target = 2024`. -/
def target : Nat := 2024

/-- `self.grid_values`: the fixed 6×6 table of cell classes. -/
def grid_values : List (List Char) :=
  [ ['A', 'B', 'B', 'C', 'C', 'C'],
    ['A', 'B', 'B', 'C', 'C', 'C'],
    ['A', 'A', 'B', 'B', 'C', 'C'],
    ['A', 'A', 'B', 'B', 'C', 'C'],
    ['A', 'A', 'A', 'B', 'B', 'C'],
    ['A', 'A', 'A', 'B', 'B', 'C'] ]

/-- `self.grid_values[i][j]`: the cell class of a position.  Python indexing
raises out of bounds; every position the solver builds is in bounds, and we
default to `'A'` there. -/
def classAt (p : Pos) : Char :=
  ((grid_values.getD p.1 []).getD p.2 'A')

/-- The weight dictionary `values = {'A': A, 'B': B, 'C': C}`. -/
structure Weights where
  A : Nat
  B : Nat
  C : Nat

/-- `values[c]`: dictionary lookup; only the keys `'A'`, `'B'`, `'C'` ever
occur (Python would raise `KeyError` otherwise; we default to the `C`
field). -/
def wval (v : Weights) (c : Char) : Nat :=
  if c = 'A' then v.A else if c = 'B' then v.B else v.C

/-- `knight_deltas` from `_precompute_knight_moves`. -/
def knight_deltas : List (Int × Int) :=
  [(2,1), (2,-1), (-2,1), (-2,-1), (1,2), (1,-2), (-1,2), (-1,-2)]

/-- `self.knight_moves[(i,j)]`: the list of in-bounds knight moves from a
position, in the order `_precompute_knight_moves` produces them. -/
def knightMoves (p : Pos) : List Pos :=
  knight_deltas.filterMap (fun d =>
    let nx : Int := (p.1 : Int) + d.1
    let ny : Int := (p.2 : Int) + d.2
    if 0 ≤ nx ∧ nx < 6 ∧ 0 ≤ ny ∧ ny < 6 then some (nx.toNat, ny.toNat) else none)

/-- The loop of `calculate_score` (lines `for i in range(1, len(path))`):
`prev` is the class of `path[i-1]`, `score` the running score, and the
remaining list holds `path[i], path[i+1], ...`.  Mirrors the early return
`if score > self.target`. -/
def scoreLoop (v : Weights) (prev : Char) (score : Nat) : List Pos → Nat
  | [] => score
  | p :: rest =>
    let curr := classAt p
    let curr_num := wval v curr
    let score' := if curr = prev then score + curr_num else score * curr_num
    if score' > target then score' else scoreLoop v curr score' rest

/-- `calculate_score(path, values)` without the cache (the cached variant is
`calculate_score_cached` below; on a cache miss it computes exactly this).
Python raises `IndexError` on an empty path; we return 0 there, and every
claim about scores concerns non-empty paths. -/
def calculate_score (path : List Pos) (v : Weights) : Nat :=
  match path with
  | [] => 0
  | p :: rest => scoreLoop v (classAt p) (wval v (classAt p)) rest

/-- The score cache `self.score_cache`, a mapping from whole paths to
scores, threaded explicitly. -/
abbrev Cache := List (List Pos × Nat)

/-- `path_tuple in self.score_cache` / `self.score_cache[path_tuple]`. -/
def cacheLookup : Cache → List Pos → Option Nat
  | [], _ => none
  | (k, n) :: rest, path => if k = path then some n else cacheLookup rest path

/-- `calculate_score(path, values)` with the cache made explicit: return the
cached score on a hit, otherwise compute the score, store it, and return
it.  (Both return sites of the Python function store the value they
return, so the stored value is always `calculate_score path v`.) -/
def calculate_score_cached (cache : Cache) (path : List Pos) (v : Weights) :
    Nat × Cache :=
  match cacheLookup cache path with
  | some n => (n, cache)
  | none => (calculate_score path v, (path, calculate_score path v) :: cache)

/-- A cache is consistent with a weight assignment when every entry records
the score of its path under that assignment.  Entries computed under the
currently active weights are exactly of this shape. -/
def ConsistentCache (v : Weights) (c : Cache) : Prop :=
  ∀ e ∈ c, e.2 = calculate_score e.1 v

/-- One step of the exact (un-truncated) score fold: the state is
`(class of the previous position, running score)`. -/
def stepScore (v : Weights) (st : Char × Nat) (p : Pos) : Char × Nat :=
  let c := classAt p
  (c, if c = st.1 then st.2 + wval v c else st.2 * wval v c)

/-- Modelled from the spec (§4.2 `score(path, weights)`): the exact fold
score of a whole path, with no early exit — start from the weight of the
first position's class; add on equal consecutive classes, multiply
otherwise. -/
def exact_score (path : List Pos) (v : Weights) : Nat :=
  match path with
  | [] => 0
  | p :: rest => (rest.foldl (stepScore v) (classAt p, wval v (classAt p))).2

/-- Modelled from the spec (§4.2, the claimed algorithm of
`calculate_score`), phrased over the list of cell classes: running score
starts at the weight of the first class; each later class adds its weight
when it equals the previous class and multiplies otherwise; return
immediately once the running score exceeds the target. -/
def specLoop (v : Weights) (prev : Char) (score : Nat) : List Char → Nat
  | [] => score
  | c :: rest =>
    let score' := if c = prev then score + wval v c else score * wval v c
    if score' > target then score' else specLoop v c score' rest

/-- Modelled from the spec: the early-exit score of a path, via its list of
cell classes. -/
def specScoreEarly (path : List Pos) (v : Weights) : Nat :=
  match path.map classAt with
  | [] => 0
  | c :: cs => specLoop v c (wval v c) cs

/-- The inner `dfs` of `find_path`, cache elided (justified by
`dfs_cached_eq` below).  `fuel` stands for `max_depth + 1 - depth`: the
Python guard `depth > max_depth` is the `fuel = 0` case, and each recursive
call (`depth + 1`) decrements the fuel.  `dfs` never returns `some []`
(the path always contains at least the start), so Python's truthiness test
`if result:` is exactly the `some` case. -/
def dfs (ed : Pos) (v : Weights) : Nat → Pos → List Pos → List Pos → Option (List Pos)
  | 0, _, _, _ => none
  | fuel + 1, pos, path, visited =>
    if pos = ed then
      if calculate_score path v = target then some path else none
    else if calculate_score path v > target then none
    else
      (knightMoves pos).findSome? (fun np =>
        if np ∈ visited then none
        else dfs ed v fuel np (path ++ [np]) (np :: visited))

/-- `find_path(start, end, values)`: iterative deepening over
`max_depth in range(4, 12)`, each round a fresh `dfs(start, [start],
{start}, 0, max_depth)`.  `List.range' 4 8 = [4, ..., 11]`, and the
initial fuel is `max_depth + 1 - 0`. -/
def find_path (start ed : Pos) (v : Weights) : Option (List Pos) :=
  (List.range' 4 8).findSome? (fun d => dfs ed v (d + 1) start [start] [start])

/-- A `(A, B, C, path1, path2)` tuple as stored in `best_solution`. -/
structure Solution where
  A : Nat
  B : Nat
  C : Nat
  path1 : List Pos
  path2 : List Pos

/-- `A + B + C` of a recorded solution. -/
def sumOf (s : Solution) : Nat := s.A + s.B + s.C

/-- The test `curr_sum >= best_sum`, with `best_sum = float('inf')`
while no solution has been recorded (so the test is false then). -/
def sumGe (n : Nat) : Option Solution → Bool
  | none => false
  | some s => decide (sumOf s ≤ n)

/-- The range of the `C` loop, `range(B + 1, 50 - A - B)`. -/
def cRange (A B : Nat) : List Nat := List.range' (B + 1) (50 - A - B - (B + 1))

/-- The range of the `B` loop, `range(A + 1, 30)`. -/
def bRange (A : Nat) : List Nat := List.range' (A + 1) (30 - (A + 1))

/-- The range of the `A` loop, `range(1, 20)`. -/
def aRange : List Nat := List.range' 1 19

/-- The innermost loop of `solve` (`for C in range(B+1, 50-A-B)`), cache
elided (see `solveLoopC_cached`): skip the triple when its sum is not
strictly below the best sum so far, otherwise attempt both paths and
record a new best on double success.  Paths: `(5,0)→(0,5)` is a1→f6 and
`(0,0)→(5,5)` is a6→f1. -/
def solveLoopC (A B : Nat) (best : Option Solution) : List Nat → Option Solution
  | [] => best
  | C :: rest =>
    if sumGe (A + B + C) best then solveLoopC A B best rest
    else
      match find_path (5, 0) (0, 5) ⟨A, B, C⟩ with
      | none => solveLoopC A B best rest
      | some path1 =>
        match find_path (0, 0) (5, 5) ⟨A, B, C⟩ with
        | none => solveLoopC A B best rest
        | some path2 => solveLoopC A B (some ⟨A, B, C, path1, path2⟩) rest

/-- The `B` loop of `solve`: `break` once `A * B > target`. -/
def solveLoopB (A : Nat) (best : Option Solution) : List Nat → Option Solution
  | [] => best
  | B :: rest =>
    if A * B > target then best
    else solveLoopB A (solveLoopC A B best (cRange A B)) rest

/-- The `A` loop of `solve`: `break` once `A > target`. -/
def solveLoopA (best : Option Solution) : List Nat → Option Solution
  | [] => best
  | A :: rest =>
    if A > target then best
    else solveLoopA (solveLoopB A best (bRange A)) rest

/-- `solve()` up to formatting: the final `best_solution` (cache behaviour
is accounted for by `solve_cached_eq` below; progress printing is the
reporting sink and is not modelled). -/
def solve : Option Solution := solveLoopA none aRange

/-- `format_path(path)`: algebraic notation, `chr(97 + y)` then `6 - x`,
comma-joined. -/
def format_path (path : List Pos) : String :=
  String.intercalate "," (path.map (fun p =>
    String.mk [Char.ofNat (97 + p.2)] ++ toString (6 - p.1)))

/-- `format_solution(A, B, C, path1, path2)`. -/
def format_solution (A B C : Nat) (path1 path2 : List Pos) : String :=
  toString A ++ "," ++ toString B ++ "," ++ toString C ++ "," ++
    format_path path1 ++ "," ++ format_path path2

/-- The final line of `solve()`: format a best solution, or the fixed
sentinel when there is none. -/
def solve_output_of (o : Option Solution) : String :=
  match o with
  | some s => format_solution s.A s.B s.C s.path1 s.path2
  | none => "No solution found"

/-- The string `solve()` returns. -/
def solve_output : String := solve_output_of solve

/-- The pruned enumeration space of weight triples that `solve` sweeps. -/
def tripleSpace : List (Nat × Nat × Nat) :=
  aRange.flatMap (fun A => (bRange A).flatMap (fun B =>
    (cRange A B).map (fun C => (A, B, C))))

/-- `A + B + C` of a triple. -/
def tripleSum (t : Nat × Nat × Nat) : Nat := t.1 + t.2.1 + t.2.2

/-- Whether both `find_path` calls succeed for a triple. -/
def tripleSucceeds (t : Nat × Nat × Nat) : Bool :=
  (find_path (5, 0) (0, 5) ⟨t.1, t.2.1, t.2.2⟩).isSome &&
  (find_path (0, 0) (5, 5) ⟨t.1, t.2.1, t.2.2⟩).isSome

/-- A recorded solution is good when its paths are exactly what
`find_path` returns for its weights. -/
def GoodSol (s : Solution) : Prop :=
  find_path (5, 0) (0, 5) ⟨s.A, s.B, s.C⟩ = some s.path1 ∧
  find_path (0, 0) (5, 5) ⟨s.A, s.B, s.C⟩ = some s.path2

/-! ### Score lemmas -/

/-- All three weights positive makes every cell-class weight positive. -/
lemma wval_pos (v : Weights) (hA : 1 ≤ v.A) (hB : 1 ≤ v.B) (hC : 1 ≤ v.C)
    (c : Char) : 1 ≤ wval v c := by
  unfold wval
  split
  · exact hA
  · split
    · exact hB
    · exact hC

/-- The source loop agrees with the spec's class-list loop. -/
lemma scoreLoop_eq_specLoop (v : Weights) :
    ∀ (l : List Pos) (prev : Char) (score : Nat),
      scoreLoop v prev score l = specLoop v prev score (l.map classAt) := by
  intro l
  induction l with
  | nil => intro prev score; rfl
  | cons p rest ih =>
    intro prev score
    simp only [scoreLoop, specLoop, List.map_cons]
    split <;> split <;> first | rfl | exact ih _ _

/-- `calculate_score` is the spec's early-exit fold. -/
lemma calculate_score_eq_spec (path : List Pos) (v : Weights) :
    calculate_score path v = specScoreEarly path v := by
  cases path with
  | nil => rfl
  | cons p rest =>
    simp only [calculate_score, specScoreEarly, List.map_cons]
    exact scoreLoop_eq_specLoop v rest _ _

/-- If the early-exit loop does not exceed the target, it computed the
exact fold. -/
lemma scoreLoop_eq_foldl_of_le (v : Weights) :
    ∀ (l : List Pos) (prev : Char) (score : Nat),
      scoreLoop v prev score l ≤ target →
      scoreLoop v prev score l = (l.foldl (stepScore v) (prev, score)).2 := by
  intro l
  induction l with
  | nil => intro prev score _; rfl
  | cons p rest ih =>
    intro prev score h
    simp only [scoreLoop] at h ⊢
    by_cases hgt :
        (if classAt p = prev then score + wval v (classAt p)
         else score * wval v (classAt p)) > target
    · rw [if_pos hgt] at h ⊢
      omega
    · rw [if_neg hgt] at h ⊢
      rw [ih _ _ h]
      rfl

/-- A `calculate_score` result that does not exceed the target is the
exact fold score. -/
lemma calculate_score_eq_exact_of_le (path : List Pos) (v : Weights)
    (h : calculate_score path v ≤ target) :
    calculate_score path v = exact_score path v := by
  cases path with
  | nil => rfl
  | cons p rest =>
    simp only [calculate_score] at h ⊢
    simp only [exact_score]
    exact scoreLoop_eq_foldl_of_le v rest _ _ h

/-- With positive weights, the exact fold never decreases as the path
grows: each step adds or multiplies by a weight `≥ 1`. -/
lemma foldl_stepScore_ge (v : Weights) (hA : 1 ≤ v.A) (hB : 1 ≤ v.B)
    (hC : 1 ≤ v.C) :
    ∀ (l : List Pos) (st : Char × Nat), st.2 ≤ (l.foldl (stepScore v) st).2 := by
  intro l
  induction l with
  | nil => intro st; exact Nat.le_refl _
  | cons p rest ih =>
    intro st
    refine Nat.le_trans ?_ (ih (stepScore v st p))
    simp only [stepScore]
    split
    · exact Nat.le_add_right _ _
    · exact Nat.le_mul_of_pos_right _ (wval_pos v hA hB hC _)

/-- Prefix monotonicity of the exact fold (positive weights): once a
prefix's exact score exceeds the target, every longer prefix's does. -/
lemma exact_score_take_mono (v : Weights) (hA : 1 ≤ v.A) (hB : 1 ≤ v.B)
    (hC : 1 ≤ v.C) (path : List Pos) (m n : Nat) (hmn : m ≤ n)
    (h : target < exact_score (path.take m) v) :
    target < exact_score (path.take n) v := by
  rcases htm : path.take m with _ | ⟨p, t⟩
  · rw [htm] at h
    simp [exact_score] at h
  · have hsplit : path.take n = (p :: t) ++ (path.drop m).take (n - m) := by
      rw [← htm, ← List.take_add]
      congr 1
      omega
    rw [htm] at h
    rw [hsplit]
    simp only [exact_score, List.cons_append] at h ⊢
    rw [List.foldl_append]
    exact Nat.lt_of_lt_of_le h (foldl_stepScore_ge v hA hB hC _ _)

/-! ### Cache lemmas -/

/-- A successful cache lookup returns a recorded entry. -/
lemma cacheLookup_mem :
    ∀ (c : Cache) (path : List Pos) (n : Nat),
      cacheLookup c path = some n → (path, n) ∈ c := by
  intro c
  induction c with
  | nil => intro path n h; simp [cacheLookup] at h
  | cons e rest ih =>
    intro path n h
    obtain ⟨k, m⟩ := e
    simp only [cacheLookup] at h
    by_cases hk : k = path
    · rw [if_pos hk] at h
      injection h with h
      subst hk h
      exact List.mem_cons_self _ _
    · rw [if_neg hk] at h
      exact List.mem_cons_of_mem _ (ih _ _ h)

/-- Reading through a consistent cache returns the pure score, and the
resulting cache is consistent again. -/
lemma calculate_score_cached_spec (v : Weights) (c : Cache) (path : List Pos)
    (h : ConsistentCache v c) :
    (calculate_score_cached c path v).1 = calculate_score path v ∧
    ConsistentCache v (calculate_score_cached c path v).2 := by
  cases hl : cacheLookup c path with
  | none =>
    simp only [calculate_score_cached, hl]
    refine ⟨trivial, ?_⟩
    intro e he
    rcases List.mem_cons.mp he with he | he
    · subst he; rfl
    · exact h e he
  | some n =>
    simp only [calculate_score_cached, hl]
    exact ⟨h _ (cacheLookup_mem c path n hl), h⟩

/-! ### DFS soundness -/

/-- Soundness of the inner search: from a call whose `path` is a simple
knight chain ending at `pos` with `visited` holding exactly the path's
positions, any returned path extends it, keeps the same head, ends at
`ed`, is a simple knight chain, and has `calculate_score` equal to the
target. -/
lemma dfs_sound (ed : Pos) (v : Weights) :
    ∀ (fuel : Nat) (pos : Pos) (path visited p : List Pos),
      path.getLast? = some pos →
      path.Chain' (fun a b => b ∈ knightMoves a) →
      path.Nodup →
      (∀ x, x ∈ visited ↔ x ∈ path) →
      dfs ed v fuel pos path visited = some p →
      p.head? = path.head? ∧ p.getLast? = some ed ∧
      p.Chain' (fun a b => b ∈ knightMoves a) ∧ p.Nodup ∧
      calculate_score p v = target := by
  intro fuel
  induction fuel with
  | zero => intro pos path visited p _ _ _ _ hd; simp [dfs] at hd
  | succ fuel ih =>
    intro pos path visited p hlast hchain hnodup hvis hd
    simp only [dfs] at hd
    by_cases hpe : pos = ed
    · rw [if_pos hpe] at hd
      by_cases hsc : calculate_score path v = target
      · rw [if_pos hsc] at hd
        injection hd with hd
        subst hd
        exact ⟨rfl, hpe ▸ hlast, hchain, hnodup, hsc⟩
      · rw [if_neg hsc] at hd
        exact absurd hd (by simp)
    · rw [if_neg hpe] at hd
      by_cases hgt : calculate_score path v > target
      · rw [if_pos hgt] at hd
        exact absurd hd (by simp)
      · rw [if_neg hgt] at hd
        obtain ⟨np, hmem, hnp⟩ := List.exists_of_findSome?_eq_some hd
        by_cases hv : np ∈ visited
        · rw [if_pos hv] at hnp
          exact absurd hnp (by simp)
        · rw [if_neg hv] at hnp
          have hnp_path : np ∉ path := fun hc => hv ((hvis np).mpr hc)
          have hne : path ≠ [] := by
            intro hnil; rw [hnil] at hlast; simp at hlast
          have hres := ih np (path ++ [np]) (np :: visited) p
            (List.getLast?_concat _)
            (by
              rw [List.chain'_append]
              refine ⟨hchain, List.chain'_singleton _, ?_⟩
              intro x hx y hy
              rw [hlast] at hx
              simp at hx hy
              subst hx; subst hy
              exact hmem)
            (by
              rw [List.nodup_append]
              exact ⟨hnodup, List.nodup_singleton _, by
                intro x hx hx'
                simp at hx'
                subst hx'
                exact hnp_path hx⟩)
            (by
              intro x
              rw [List.mem_cons, List.mem_append, List.mem_singleton, hvis x]
              tauto)
            hnp
          refine ⟨?_, hres.2.1, hres.2.2.1, hres.2.2.2.1, hres.2.2.2.2⟩
          rw [hres.1]
          cases path with
          | nil => exact absurd rfl hne
          | cons a t => rfl

/-- Any path returned by the inner search has length less than
`path.length + fuel`. -/
lemma dfs_length (ed : Pos) (v : Weights) :
    ∀ (fuel : Nat) (pos : Pos) (path visited p : List Pos),
      dfs ed v fuel pos path visited = some p →
      p.length + 1 ≤ path.length + fuel := by
  intro fuel
  induction fuel with
  | zero => intro pos path visited p hd; simp [dfs] at hd
  | succ fuel ih =>
    intro pos path visited p hd
    simp only [dfs] at hd
    by_cases hpe : pos = ed
    · rw [if_pos hpe] at hd
      by_cases hsc : calculate_score path v = target
      · rw [if_pos hsc] at hd
        injection hd with hd
        subst hd
        omega
      · rw [if_neg hsc] at hd
        exact absurd hd (by simp)
    · rw [if_neg hpe] at hd
      by_cases hgt : calculate_score path v > target
      · rw [if_pos hgt] at hd
        exact absurd hd (by simp)
      · rw [if_neg hgt] at hd
        obtain ⟨np, hmem, hnp⟩ := List.exists_of_findSome?_eq_some hd
        by_cases hv : np ∈ visited
        · rw [if_pos hv] at hnp
          exact absurd hnp (by simp)
        · rw [if_neg hv] at hnp
          have := ih np (path ++ [np]) (np :: visited) p hnp
          rw [List.length_append] at this
          simp at this
          omega

/-- The search never walks through `ed`: any returned path contains `ed`
exactly once, as its last position. -/
lemma dfs_end_once (ed : Pos) (v : Weights) :
    ∀ (fuel : Nat) (pos : Pos) (path visited p : List Pos),
      path.getLast? = some pos →
      (∀ x ∈ path.dropLast, x ≠ ed) →
      dfs ed v fuel pos path visited = some p →
      p.count ed = 1 ∧ p.getLast? = some ed := by
  intro fuel
  induction fuel with
  | zero => intro pos path visited p _ _ hd; simp [dfs] at hd
  | succ fuel ih =>
    intro pos path visited p hlast hdrop hd
    simp only [dfs] at hd
    by_cases hpe : pos = ed
    · rw [if_pos hpe] at hd
      by_cases hsc : calculate_score path v = target
      · rw [if_pos hsc] at hd
        injection hd with hd
        subst hd
        have hne : path ≠ [] := by
          intro hnil; rw [hnil] at hlast; simp at hlast
        have hdec : path.dropLast ++ [pos] = path := by
          have h1 := List.dropLast_append_getLast hne
          have h2 : path.getLast hne = pos := by
            have := List.getLast?_eq_getLast path hne
            rw [this] at hlast
            injection hlast with h
          rw [h2] at h1
          exact h1
        subst hpe
        constructor
        · rw [← hdec, List.count_append]
          have hzero : path.dropLast.count pos = 0 :=
            List.count_eq_zero.mpr (fun hc => hdrop pos hc rfl)
          rw [hzero]
          simp
        · exact hlast
      · rw [if_neg hsc] at hd
        exact absurd hd (by simp)
    · rw [if_neg hpe] at hd
      by_cases hgt : calculate_score path v > target
      · rw [if_pos hgt] at hd
        exact absurd hd (by simp)
      · rw [if_neg hgt] at hd
        obtain ⟨np, hmem, hnp⟩ := List.exists_of_findSome?_eq_some hd
        by_cases hv : np ∈ visited
        · rw [if_pos hv] at hnp
          exact absurd hnp (by simp)
        · rw [if_neg hv] at hnp
          have hne : path ≠ [] := by
            intro hnil; rw [hnil] at hlast; simp at hlast
          refine ih np (path ++ [np]) (np :: visited) p
            (List.getLast?_concat _) ?_ hnp
          rw [List.dropLast_concat]
          intro x hx
          have hdec : path.dropLast ++ [pos] = path := by
            have h1 := List.dropLast_append_getLast hne
            have h2 : path.getLast hne = pos := by
              have := List.getLast?_eq_getLast path hne
              rw [this] at hlast
              injection hlast with h
            rw [h2] at h1
            exact h1
          rw [← hdec, List.mem_append, List.mem_singleton] at hx
          rcases hx with hx | hx
          · exact hdrop x hx
          · subst hx; exact hpe

/-! ### The search with its cache made explicit -/

/-- The neighbour loop of `dfs` (`for next_pos in self.knight_moves[pos]`),
threading the cache through the recursive continuation `f`: skip visited
neighbours, return the first successful recursive result, carry the
updated cache across failures. -/
def tryMoves (f : Pos → Cache → Option (List Pos) × Cache) :
    List Pos → List Pos → Cache → Option (List Pos) × Cache
  | [], _, cache => (none, cache)
  | np :: rest, visited, cache =>
    if np ∈ visited then tryMoves f rest visited cache
    else
      match f np cache with
      | (some p, c') => (some p, c')
      | (none, c') => tryMoves f rest visited c'

/-- `dfs` with the score cache threaded explicitly, exactly as the Python
code reads and writes `self.score_cache`. -/
def dfs_cached (ed : Pos) (v : Weights) :
    Nat → Pos → List Pos → List Pos → Cache → Option (List Pos) × Cache
  | 0, _, _, _, cache => (none, cache)
  | fuel + 1, pos, path, visited, cache =>
    if pos = ed then
      let sc := calculate_score_cached cache path v
      if sc.1 = target then (some path, sc.2) else (none, sc.2)
    else
      let sc := calculate_score_cached cache path v
      if sc.1 > target then (none, sc.2)
      else
        tryMoves (fun np c =>
            dfs_cached ed v fuel np (path ++ [np]) (np :: visited) c)
          (knightMoves pos) visited sc.2

/-- The iterative-deepening loop of `find_path`, threading the cache. -/
def fpLoop (start ed : Pos) (v : Weights) :
    List Nat → Cache → Option (List Pos) × Cache
  | [], cache => (none, cache)
  | d :: rest, cache =>
    match dfs_cached ed v (d + 1) start [start] [start] cache with
    | (some p, c') => (some p, c')
    | (none, c') => fpLoop start ed v rest c'

/-- `find_path(start, end, values)` with the score cache threaded
explicitly. -/
def find_path_cached (start ed : Pos) (v : Weights) (cache : Cache) :
    Option (List Pos) × Cache :=
  fpLoop start ed v (List.range' 4 8) cache

/-- The neighbour loop computes the same result as the cache-free loop of
`dfs`, and preserves cache consistency, whenever its recursive
continuation does. -/
lemma tryMoves_eq (v : Weights) (g : Pos → Option (List Pos))
    (f : Pos → Cache → Option (List Pos) × Cache)
    (hf : ∀ np c, ConsistentCache v c →
      (f np c).1 = g np ∧ ConsistentCache v (f np c).2) :
    ∀ (l visited : List Pos) (c : Cache), ConsistentCache v c →
      (tryMoves f l visited c).1 =
        l.findSome? (fun np => if np ∈ visited then none else g np) ∧
      ConsistentCache v (tryMoves f l visited c).2 := by
  intro l
  induction l with
  | nil => intro visited c hc; exact ⟨rfl, hc⟩
  | cons np rest ih =>
    intro visited c hc
    simp only [tryMoves, List.findSome?_cons]
    by_cases hv : np ∈ visited
    · rw [if_pos hv, if_pos hv]
      exact ih visited c hc
    · rw [if_neg hv, if_neg hv]
      obtain ⟨h1, h2⟩ := hf np c hc
      cases hfc : f np c with
      | mk r c' =>
        rw [hfc] at h1 h2
        cases r with
        | some p => simp only [← h1]; exact ⟨trivial, h2⟩
        | none =>
          simp only [← h1]
          exact ih visited c' h2

/-- Starting from a cache consistent with the active weights, the cached
search returns exactly what the cache-free search returns, and every cache
it produces is consistent again — so no score read during the search can
come from a different weight assignment. -/
lemma dfs_cached_eq (ed : Pos) (v : Weights) :
    ∀ (fuel : Nat) (pos : Pos) (path visited : List Pos) (c : Cache),
      ConsistentCache v c →
      (dfs_cached ed v fuel pos path visited c).1 =
        dfs ed v fuel pos path visited ∧
      ConsistentCache v (dfs_cached ed v fuel pos path visited c).2 := by
  intro fuel
  induction fuel with
  | zero => intro pos path visited c hc; exact ⟨rfl, hc⟩
  | succ fuel ih =>
    intro pos path visited c hc
    obtain ⟨hs1, hs2⟩ := calculate_score_cached_spec v c path hc
    simp only [dfs_cached, dfs]
    by_cases hpe : pos = ed
    · rw [if_pos hpe, if_pos hpe]
      by_cases hsc : (calculate_score_cached c path v).1 = target
      · rw [if_pos hsc, if_pos (hs1 ▸ hsc)]
        exact ⟨rfl, hs2⟩
      · rw [if_neg hsc, if_neg (hs1 ▸ hsc)]
        exact ⟨rfl, hs2⟩
    · rw [if_neg hpe, if_neg hpe]
      by_cases hgt : (calculate_score_cached c path v).1 > target
      · rw [if_pos hgt, if_pos (hs1 ▸ hgt)]
        exact ⟨rfl, hs2⟩
      · rw [if_neg hgt, if_neg (hs1 ▸ hgt)]
        exact tryMoves_eq v
          (fun np => dfs ed v fuel np (path ++ [np]) (np :: visited))
          (fun np c' => dfs_cached ed v fuel np (path ++ [np]) (np :: visited) c')
          (fun np c' hc' => ih np (path ++ [np]) (np :: visited) c' hc')
          (knightMoves pos) visited _ hs2

/-- The deepening loop with cache agrees with the cache-free loop and
preserves consistency. -/
lemma fpLoop_eq (start ed : Pos) (v : Weights) :
    ∀ (l : List Nat) (c : Cache), ConsistentCache v c →
      (fpLoop start ed v l c).1 =
        l.findSome? (fun d => dfs ed v (d + 1) start [start] [start]) ∧
      ConsistentCache v (fpLoop start ed v l c).2 := by
  intro l
  induction l with
  | nil => intro c hc; exact ⟨rfl, hc⟩
  | cons d rest ih =>
    intro c hc
    simp only [fpLoop, List.findSome?_cons]
    obtain ⟨h1, h2⟩ := dfs_cached_eq ed v (d + 1) start [start] [start] c hc
    cases hfc : dfs_cached ed v (d + 1) start [start] [start] c with
    | mk r c' =>
      rw [hfc] at h1 h2
      cases r with
      | some p => simp only [← h1]; exact ⟨trivial, h2⟩
      | none =>
        simp only [← h1]
        exact ih c' h2

/-- `find_path` with an explicit cache: under a consistent starting cache
it returns the cache-free result and leaves a consistent cache. -/
lemma find_path_cached_spec (start ed : Pos) (v : Weights) (c : Cache)
    (hc : ConsistentCache v c) :
    (find_path_cached start ed v c).1 = find_path start ed v ∧
    ConsistentCache v (find_path_cached start ed v c).2 :=
  fpLoop_eq start ed v (List.range' 4 8) c hc

/-- The empty (freshly cleared) cache is consistent with any weights. -/
lemma consistent_nil (v : Weights) : ConsistentCache v [] := by
  intro e he
  simp at he

/-- The innermost loop of `solve` with the cache threaded exactly as in the
source: `self.score_cache.clear()` before the two searches of each
attempted triple (the second search continues with the cache the first one
left). -/
def solveLoopC_cached (A B : Nat) :
    List Nat → Option Solution → Cache → Option Solution × Cache
  | [], best, cache => (best, cache)
  | C :: rest, best, cache =>
    if sumGe (A + B + C) best then solveLoopC_cached A B rest best cache
    else
      match find_path_cached (5, 0) (0, 5) ⟨A, B, C⟩ [] with
      | (none, c1) => solveLoopC_cached A B rest best c1
      | (some path1, c1) =>
        match find_path_cached (0, 0) (5, 5) ⟨A, B, C⟩ c1 with
        | (none, c2) => solveLoopC_cached A B rest best c2
        | (some path2, c2) =>
          solveLoopC_cached A B rest (some ⟨A, B, C, path1, path2⟩) c2

/-- The `B` loop of `solve` with the cache threaded. -/
def solveLoopB_cached (A : Nat) :
    List Nat → Option Solution → Cache → Option Solution × Cache
  | [], best, cache => (best, cache)
  | B :: rest, best, cache =>
    if A * B > target then (best, cache)
    else
      match solveLoopC_cached A B (cRange A B) best cache with
      | (best', cache') => solveLoopB_cached A rest best' cache'

/-- The `A` loop of `solve` with the cache threaded; the final cache is
dropped, as `solve` only returns the best solution. -/
def solveLoopA_cached : List Nat → Option Solution → Cache → Option Solution
  | [], best, _ => best
  | A :: rest, best, cache =>
    if A > target then best
    else
      match solveLoopB_cached A (bRange A) best cache with
      | (best', cache') => solveLoopA_cached rest best' cache'

/-- `solve()` with the cache threaded; `__init__` starts from the empty
cache. -/
def solve_cached : Option Solution :=
  solveLoopA_cached aRange none []

/-- The cache-threaded inner loop computes the cache-free one: each
attempted triple starts from the freshly cleared (hence consistent) cache,
so both searches return their cache-free results whatever cache the loop
was entered with. -/
lemma solveLoopC_cached_eq (A B : Nat) :
    ∀ (l : List Nat) (best : Option Solution) (cache : Cache),
      (solveLoopC_cached A B l best cache).1 = solveLoopC A B best l := by
  intro l
  induction l with
  | nil => intro best cache; rfl
  | cons C rest ih =>
    intro best cache
    simp only [solveLoopC_cached, solveLoopC]
    by_cases hskip : sumGe (A + B + C) best = true
    · rw [if_pos hskip, if_pos hskip]
      exact ih best cache
    · rw [if_neg hskip, if_neg hskip]
      obtain ⟨h1, hc1⟩ :=
        find_path_cached_spec (5, 0) (0, 5) ⟨A, B, C⟩ [] (consistent_nil _)
      cases hfc1 : find_path_cached (5, 0) (0, 5) ⟨A, B, C⟩ [] with
      | mk r1 c1 =>
        rw [hfc1] at h1 hc1
        have h1' : find_path (5, 0) (0, 5) ⟨A, B, C⟩ = r1 := h1.symm
        rw [h1']
        cases r1 with
        | none => dsimp only; exact ih best c1
        | some path1 =>
          dsimp only
          obtain ⟨h2, hc2⟩ :=
            find_path_cached_spec (0, 0) (5, 5) ⟨A, B, C⟩ c1 hc1
          cases hfc2 : find_path_cached (0, 0) (5, 5) ⟨A, B, C⟩ c1 with
          | mk r2 c2 =>
            rw [hfc2] at h2 hc2
            have h2' : find_path (0, 0) (5, 5) ⟨A, B, C⟩ = r2 := h2.symm
            rw [h2']
            cases r2 with
            | none => dsimp only; exact ih best c2
            | some path2 => dsimp only; exact ih (some ⟨A, B, C, path1, path2⟩) c2

/-- The cache-threaded `B` loop computes the cache-free one. -/
lemma solveLoopB_cached_eq (A : Nat) :
    ∀ (l : List Nat) (best : Option Solution) (cache : Cache),
      (solveLoopB_cached A l best cache).1 = solveLoopB A best l := by
  intro l
  induction l with
  | nil => intro best cache; rfl
  | cons B rest ih =>
    intro best cache
    simp only [solveLoopB_cached, solveLoopB]
    by_cases hbr : A * B > target
    · rw [if_pos hbr, if_pos hbr]
    · rw [if_neg hbr, if_neg hbr]
      have heq := solveLoopC_cached_eq A B (cRange A B) best cache
      cases hfc : solveLoopC_cached A B (cRange A B) best cache with
      | mk best' cache' =>
        rw [hfc] at heq
        have h' : solveLoopC A B best (cRange A B) = best' := heq.symm
        rw [h']
        exact ih best' cache'

/-- The cache-threaded `A` loop computes the cache-free one. -/
lemma solveLoopA_cached_eq :
    ∀ (l : List Nat) (best : Option Solution) (cache : Cache),
      solveLoopA_cached l best cache = solveLoopA best l := by
  intro l
  induction l with
  | nil => intro best cache; rfl
  | cons A rest ih =>
    intro best cache
    simp only [solveLoopA_cached, solveLoopA]
    by_cases hbr : A > target
    · rw [if_pos hbr, if_pos hbr]
    · rw [if_neg hbr, if_neg hbr]
      have heq := solveLoopB_cached_eq A (bRange A) best cache
      cases hfc : solveLoopB_cached A (bRange A) best cache with
      | mk best' cache' =>
        rw [hfc] at heq
        have h' : solveLoopB A best (bRange A) = best' := heq.symm
        rw [h']
        exact ih best' cache'

/-- Because the optimizer clears the cache before each attempted triple,
the cache-threaded `solve` returns exactly the cache-free `solve`. -/
lemma solve_cached_eq : solve_cached = solve :=
  solveLoopA_cached_eq aRange none []

/-! ### Optimizer invariants -/

/-- A membership characterization of `List.range'` (step 1). -/
lemma mem_range'_iff (s n m : Nat) : m ∈ List.range' s n ↔ s ≤ m ∧ m < s + n := by
  rw [List.mem_range']
  constructor
  · rintro ⟨i, hi, rfl⟩
    omega
  · intro h
    exact ⟨m - s, by omega, by omega⟩

/-- The recorded best solution never gets worse along the inner loop, and
never reverts to `none`. -/
lemma solveLoopC_mono (A B : Nat) :
    ∀ (l : List Nat) (best : Option Solution) (s0 : Solution),
      best = some s0 →
      ∃ s1, solveLoopC A B best l = some s1 ∧ sumOf s1 ≤ sumOf s0 := by
  intro l
  induction l with
  | nil =>
    intro best s0 hb
    exact ⟨s0, by rw [solveLoopC, hb], Nat.le_refl _⟩
  | cons C rest ih =>
    intro best s0 hb
    simp only [solveLoopC]
    by_cases hskip : sumGe (A + B + C) best = true
    · rw [if_pos hskip]
      exact ih best s0 hb
    · rw [if_neg hskip]
      cases h1 : find_path (5, 0) (0, 5) ⟨A, B, C⟩ with
      | none => exact ih best s0 hb
      | some path1 =>
        cases h2 : find_path (0, 0) (5, 5) ⟨A, B, C⟩ with
        | none => exact ih best s0 hb
        | some path2 =>
          obtain ⟨s1, hs1, hle⟩ :=
            ih (some ⟨A, B, C, path1, path2⟩) ⟨A, B, C, path1, path2⟩ rfl
          refine ⟨s1, hs1, ?_⟩
          have hlt : ¬ (sumOf s0 ≤ A + B + C) := by
            rw [hb] at hskip
            simpa [sumGe] using hskip
          simp only [sumOf] at hle hlt ⊢
          omega

/-- Any solution recorded by the inner loop either was already recorded or
comes from a successful pair of searches on a triple `(A, B, C)` with
`C ∈ l`. -/
lemma solveLoopC_ok (A B : Nat) :
    ∀ (l : List Nat) (best : Option Solution),
      (∀ s, best = some s → GoodSol s ∧ (s.A, s.B, s.C) ∈ tripleSpace) →
      (∀ C ∈ l, (A, B, C) ∈ tripleSpace) →
      ∀ s, solveLoopC A B best l = some s →
        GoodSol s ∧ (s.A, s.B, s.C) ∈ tripleSpace := by
  intro l
  induction l with
  | nil =>
    intro best hok _ s hs
    rw [solveLoopC] at hs
    exact hok s hs
  | cons C rest ih =>
    intro best hok hmem s hs
    simp only [solveLoopC] at hs
    by_cases hskip : sumGe (A + B + C) best = true
    · rw [if_pos hskip] at hs
      exact ih best hok (fun C' hC' => hmem C' (List.mem_cons_of_mem _ hC')) s hs
    · rw [if_neg hskip] at hs
      cases h1 : find_path (5, 0) (0, 5) ⟨A, B, C⟩ with
      | none =>
        rw [h1] at hs
        exact ih best hok (fun C' hC' => hmem C' (List.mem_cons_of_mem _ hC')) s hs
      | some path1 =>
        rw [h1] at hs
        cases h2 : find_path (0, 0) (5, 5) ⟨A, B, C⟩ with
        | none =>
          rw [h2] at hs
          exact ih best hok (fun C' hC' => hmem C' (List.mem_cons_of_mem _ hC')) s hs
        | some path2 =>
          rw [h2] at hs
          refine ih (some ⟨A, B, C, path1, path2⟩) ?_
            (fun C' hC' => hmem C' (List.mem_cons_of_mem _ hC')) s hs
          intro s' hs'
          injection hs' with hs'
          subst hs'
          exact ⟨⟨h1, h2⟩, hmem C (List.mem_cons_self _ _)⟩

/-- If some `C` in the remaining inner loop has both searches succeed,
the loop ends with a recorded solution of sum at most `A + B + C`. -/
lemma solveLoopC_min (A B : Nat) :
    ∀ (l : List Nat) (best : Option Solution) (C : Nat),
      C ∈ l → tripleSucceeds (A, B, C) = true →
      ∃ s1, solveLoopC A B best l = some s1 ∧ sumOf s1 ≤ A + B + C := by
  intro l
  induction l with
  | nil => intro best C hC; simp at hC
  | cons C0 rest ih =>
    intro best C hC hsucc
    rcases List.mem_cons.mp hC with hC | hC
    · subst hC
      simp only [solveLoopC]
      by_cases hskip : sumGe (A + B + C) best = true
      · rw [if_pos hskip]
        cases hb : best with
        | none => rw [hb] at hskip; simp [sumGe] at hskip
        | some s0 =>
          have hle : sumOf s0 ≤ A + B + C := by
            rw [hb] at hskip
            simpa [sumGe] using hskip
          obtain ⟨s1, hs1, h1⟩ := solveLoopC_mono A B rest (some s0) s0 rfl
          exact ⟨s1, hs1, Nat.le_trans h1 hle⟩
      · rw [if_neg hskip]
        have hs := hsucc
        simp only [tripleSucceeds, Bool.and_eq_true, Option.isSome_iff_exists] at hs
        obtain ⟨⟨p1, hp1⟩, ⟨p2, hp2⟩⟩ := hs
        rw [hp1, hp2]
        obtain ⟨s1, hs1, h1⟩ :=
          solveLoopC_mono A B rest (some ⟨A, B, C, p1, p2⟩) ⟨A, B, C, p1, p2⟩ rfl
        exact ⟨s1, hs1, by simpa [sumOf] using h1⟩
    · simp only [solveLoopC]
      by_cases hskip : sumGe (A + B + C0) best = true
      · rw [if_pos hskip]
        exact ih best C hC hsucc
      · rw [if_neg hskip]
        cases h1 : find_path (5, 0) (0, 5) ⟨A, B, C0⟩ with
        | none => exact ih best C hC hsucc
        | some path1 =>
          cases h2 : find_path (0, 0) (5, 5) ⟨A, B, C0⟩ with
          | none => exact ih best C hC hsucc
          | some path2 => exact ih (some ⟨A, B, C0, path1, path2⟩) C hC hsucc

/-- If the inner loop ends with no recorded solution, it started with none
and every triple it swept fails. -/
lemma solveLoopC_none (A B : Nat) :
    ∀ (l : List Nat) (best : Option Solution),
      solveLoopC A B best l = none →
      best = none ∧ ∀ C ∈ l, tripleSucceeds (A, B, C) = false := by
  intro l
  induction l with
  | nil =>
    intro best h
    rw [solveLoopC] at h
    exact ⟨h, by simp⟩
  | cons C0 rest ih =>
    intro best h
    have hbn : best = none := by
      cases hb : best with
      | none => rfl
      | some s0 =>
        obtain ⟨s1, hs1, _⟩ := solveLoopC_mono A B (C0 :: rest) best s0 hb
        rw [h] at hs1
        exact absurd hs1 (by simp)
    subst hbn
    simp only [solveLoopC] at h
    rw [if_neg (by simp [sumGe])] at h
    refine ⟨rfl, ?_⟩
    intro C hC
    rcases List.mem_cons.mp hC with hC | hC
    · subst hC
      cases h1 : find_path (5, 0) (0, 5) ⟨A, B, C⟩ with
      | none =>
        simp only [tripleSucceeds]
        rw [h1]
        rfl
      | some path1 =>
        try rw [h1] at h
        cases h2 : find_path (0, 0) (5, 5) ⟨A, B, C⟩ with
        | none =>
          simp only [tripleSucceeds]
          rw [h1, h2]
          rfl
        | some path2 =>
          try rw [h2] at h
          have h' : solveLoopC A B (some ⟨A, B, C, path1, path2⟩) rest = none := h
          obtain ⟨s1, hs1, _⟩ :=
            solveLoopC_mono A B rest (some ⟨A, B, C, path1, path2⟩)
              ⟨A, B, C, path1, path2⟩ rfl
          rw [hs1] at h'
          exact absurd h' (by simp)
    · cases h1 : find_path (5, 0) (0, 5) ⟨A, B, C0⟩ with
      | none =>
        try rw [h1] at h
        have h' : solveLoopC A B none rest = none := h
        exact (ih none h').2 C hC
      | some path1 =>
        try rw [h1] at h
        cases h2 : find_path (0, 0) (5, 5) ⟨A, B, C0⟩ with
        | none =>
          try rw [h2] at h
          have h' : solveLoopC A B none rest = none := h
          exact (ih none h').2 C hC
        | some path2 =>
          try rw [h2] at h
          have h' : solveLoopC A B (some ⟨A, B, C0, path1, path2⟩) rest = none := h
          obtain ⟨s1, hs1, _⟩ :=
            solveLoopC_mono A B rest (some ⟨A, B, C0, path1, path2⟩)
              ⟨A, B, C0, path1, path2⟩ rfl
          rw [hs1] at h'
          exact absurd h' (by simp)

/-- The `B` loop never loses or worsens a recorded solution, provided its
break condition never fires on the values it sweeps. -/
lemma solveLoopB_mono (A : Nat) :
    ∀ (l : List Nat) (best : Option Solution) (s0 : Solution),
      (∀ B ∈ l, A * B ≤ target) →
      best = some s0 →
      ∃ s1, solveLoopB A best l = some s1 ∧ sumOf s1 ≤ sumOf s0 := by
  intro l
  induction l with
  | nil =>
    intro best s0 _ hb
    exact ⟨s0, by rw [solveLoopB, hb], Nat.le_refl _⟩
  | cons B rest ih =>
    intro best s0 hbr hb
    simp only [solveLoopB]
    rw [if_neg (by
      have := hbr B (List.mem_cons_self _ _)
      omega)]
    obtain ⟨s1, hs1, h1⟩ := solveLoopC_mono A B (cRange A B) best s0 hb
    obtain ⟨s2, hs2, h2⟩ :=
      ih (solveLoopC A B best (cRange A B)) s1
        (fun B' hB' => hbr B' (List.mem_cons_of_mem _ hB')) hs1
    exact ⟨s2, hs2, Nat.le_trans h2 h1⟩

/-- Solutions recorded by the `B` loop are good and come from the pruned
space. -/
lemma solveLoopB_ok (A : Nat) :
    ∀ (l : List Nat) (best : Option Solution),
      (∀ B ∈ l, A * B ≤ target) →
      (∀ B ∈ l, ∀ C ∈ cRange A B, (A, B, C) ∈ tripleSpace) →
      (∀ s, best = some s → GoodSol s ∧ (s.A, s.B, s.C) ∈ tripleSpace) →
      ∀ s, solveLoopB A best l = some s →
        GoodSol s ∧ (s.A, s.B, s.C) ∈ tripleSpace := by
  intro l
  induction l with
  | nil =>
    intro best _ _ hok s hs
    rw [solveLoopB] at hs
    exact hok s hs
  | cons B rest ih =>
    intro best hbr hmem hok s hs
    simp only [solveLoopB] at hs
    rw [if_neg (by
      have := hbr B (List.mem_cons_self _ _)
      omega)] at hs
    exact ih (solveLoopC A B best (cRange A B))
      (fun B' hB' => hbr B' (List.mem_cons_of_mem _ hB'))
      (fun B' hB' => hmem B' (List.mem_cons_of_mem _ hB'))
      (solveLoopC_ok A B (cRange A B) best hok
        (fun C hC => hmem B (List.mem_cons_self _ _) C hC))
      s hs

/-- If some `(B, C)` in the remaining `B` loop succeeds, the loop ends
with a recorded solution of sum at most `A + B + C`. -/
lemma solveLoopB_min (A : Nat) :
    ∀ (l : List Nat) (best : Option Solution) (B C : Nat),
      (∀ B' ∈ l, A * B' ≤ target) →
      B ∈ l → C ∈ cRange A B → tripleSucceeds (A, B, C) = true →
      ∃ s1, solveLoopB A best l = some s1 ∧ sumOf s1 ≤ A + B + C := by
  intro l
  induction l with
  | nil => intro best B C _ hB; simp at hB
  | cons B0 rest ih =>
    intro best B C hbr hB hC hsucc
    simp only [solveLoopB]
    rw [if_neg (by
      have := hbr B0 (List.mem_cons_self _ _)
      omega)]
    rcases List.mem_cons.mp hB with hB | hB
    · subst hB
      obtain ⟨s1, hs1, h1⟩ := solveLoopC_min A B (cRange A B) best C hC hsucc
      obtain ⟨s2, hs2, h2⟩ :=
        solveLoopB_mono A rest (solveLoopC A B best (cRange A B)) s1
          (fun B' hB' => hbr B' (List.mem_cons_of_mem _ hB')) hs1
      exact ⟨s2, hs2, Nat.le_trans h2 h1⟩
    · exact ih (solveLoopC A B0 best (cRange A B0)) B C
        (fun B' hB' => hbr B' (List.mem_cons_of_mem _ hB')) hB hC hsucc

/-- If the `B` loop ends with no recorded solution, it started with none
and every `(B, C)` it swept fails. -/
lemma solveLoopB_none (A : Nat) :
    ∀ (l : List Nat) (best : Option Solution),
      (∀ B ∈ l, A * B ≤ target) →
      solveLoopB A best l = none →
      best = none ∧ ∀ B ∈ l, ∀ C ∈ cRange A B, tripleSucceeds (A, B, C) = false := by
  intro l
  induction l with
  | nil =>
    intro best _ h
    rw [solveLoopB] at h
    exact ⟨h, by simp⟩
  | cons B0 rest ih =>
    intro best hbr h
    simp only [solveLoopB] at h
    rw [if_neg (by
      have := hbr B0 (List.mem_cons_self _ _)
      omega)] at h
    obtain ⟨hCnone, hrest⟩ :=
      ih (solveLoopC A B0 best (cRange A B0))
        (fun B' hB' => hbr B' (List.mem_cons_of_mem _ hB')) h
    obtain ⟨hbn, hhead⟩ := solveLoopC_none A B0 (cRange A B0) best hCnone
    refine ⟨hbn, ?_⟩
    intro B hB C hC
    rcases List.mem_cons.mp hB with hB | hB
    · subst hB
      exact hhead C hC
    · exact hrest B hB C hC

/-- The `A` loop never loses or worsens a recorded solution, provided its
break condition never fires on the values it sweeps. -/
lemma solveLoopA_mono :
    ∀ (l : List Nat) (best : Option Solution) (s0 : Solution),
      (∀ A ∈ l, A ≤ target) →
      (∀ A ∈ l, ∀ B ∈ bRange A, A * B ≤ target) →
      best = some s0 →
      ∃ s1, solveLoopA best l = some s1 ∧ sumOf s1 ≤ sumOf s0 := by
  intro l
  induction l with
  | nil =>
    intro best s0 _ _ hb
    exact ⟨s0, by rw [solveLoopA, hb], Nat.le_refl _⟩
  | cons A rest ih =>
    intro best s0 ha hab hb
    simp only [solveLoopA]
    rw [if_neg (by
      have := ha A (List.mem_cons_self _ _)
      omega)]
    obtain ⟨s1, hs1, h1⟩ :=
      solveLoopB_mono A (bRange A) best s0 (hab A (List.mem_cons_self _ _)) hb
    obtain ⟨s2, hs2, h2⟩ :=
      ih (solveLoopB A best (bRange A)) s1
        (fun A' hA' => ha A' (List.mem_cons_of_mem _ hA'))
        (fun A' hA' => hab A' (List.mem_cons_of_mem _ hA')) hs1
    exact ⟨s2, hs2, Nat.le_trans h2 h1⟩

/-- Solutions recorded by the `A` loop are good and come from the pruned
space. -/
lemma solveLoopA_ok :
    ∀ (l : List Nat) (best : Option Solution),
      (∀ A ∈ l, A ≤ target) →
      (∀ A ∈ l, ∀ B ∈ bRange A, A * B ≤ target) →
      (∀ A ∈ l, ∀ B ∈ bRange A, ∀ C ∈ cRange A B, (A, B, C) ∈ tripleSpace) →
      (∀ s, best = some s → GoodSol s ∧ (s.A, s.B, s.C) ∈ tripleSpace) →
      ∀ s, solveLoopA best l = some s →
        GoodSol s ∧ (s.A, s.B, s.C) ∈ tripleSpace := by
  intro l
  induction l with
  | nil =>
    intro best _ _ _ hok s hs
    rw [solveLoopA] at hs
    exact hok s hs
  | cons A rest ih =>
    intro best ha hab hmem hok s hs
    simp only [solveLoopA] at hs
    rw [if_neg (by
      have := ha A (List.mem_cons_self _ _)
      omega)] at hs
    exact ih (solveLoopB A best (bRange A))
      (fun A' hA' => ha A' (List.mem_cons_of_mem _ hA'))
      (fun A' hA' => hab A' (List.mem_cons_of_mem _ hA'))
      (fun A' hA' => hmem A' (List.mem_cons_of_mem _ hA'))
      (solveLoopB_ok A (bRange A) best (hab A (List.mem_cons_self _ _))
        (hmem A (List.mem_cons_self _ _)) hok)
      s hs

/-- If some `(A, B, C)` in the remaining `A` loop succeeds, the loop ends
with a recorded solution of sum at most `A + B + C`. -/
lemma solveLoopA_min :
    ∀ (l : List Nat) (best : Option Solution) (A B C : Nat),
      (∀ A' ∈ l, A' ≤ target) →
      (∀ A' ∈ l, ∀ B' ∈ bRange A', A' * B' ≤ target) →
      A ∈ l → B ∈ bRange A → C ∈ cRange A B → tripleSucceeds (A, B, C) = true →
      ∃ s1, solveLoopA best l = some s1 ∧ sumOf s1 ≤ A + B + C := by
  intro l
  induction l with
  | nil => intro best A B C _ _ hA; simp at hA
  | cons A0 rest ih =>
    intro best A B C ha hab hA hB hC hsucc
    simp only [solveLoopA]
    rw [if_neg (by
      have := ha A0 (List.mem_cons_self _ _)
      omega)]
    rcases List.mem_cons.mp hA with hA | hA
    · subst hA
      obtain ⟨s1, hs1, h1⟩ :=
        solveLoopB_min A (bRange A) best B C (hab A (List.mem_cons_self _ _))
          hB hC hsucc
      obtain ⟨s2, hs2, h2⟩ :=
        solveLoopA_mono rest (solveLoopB A best (bRange A)) s1
          (fun A' hA' => ha A' (List.mem_cons_of_mem _ hA'))
          (fun A' hA' => hab A' (List.mem_cons_of_mem _ hA')) hs1
      exact ⟨s2, hs2, Nat.le_trans h2 h1⟩
    · exact ih (solveLoopB A0 best (bRange A0)) A B C
        (fun A' hA' => ha A' (List.mem_cons_of_mem _ hA'))
        (fun A' hA' => hab A' (List.mem_cons_of_mem _ hA')) hA hB hC hsucc

/-- If the `A` loop ends with no recorded solution, it started with none
and every `(A, B, C)` it swept fails. -/
lemma solveLoopA_none :
    ∀ (l : List Nat) (best : Option Solution),
      (∀ A ∈ l, A ≤ target) →
      (∀ A ∈ l, ∀ B ∈ bRange A, A * B ≤ target) →
      solveLoopA best l = none →
      best = none ∧
      ∀ A ∈ l, ∀ B ∈ bRange A, ∀ C ∈ cRange A B,
        tripleSucceeds (A, B, C) = false := by
  intro l
  induction l with
  | nil =>
    intro best _ _ h
    rw [solveLoopA] at h
    exact ⟨h, by simp⟩
  | cons A0 rest ih =>
    intro best ha hab h
    simp only [solveLoopA] at h
    rw [if_neg (by
      have := ha A0 (List.mem_cons_self _ _)
      omega)] at h
    obtain ⟨hBnone, hrest⟩ :=
      ih (solveLoopB A0 best (bRange A0))
        (fun A' hA' => ha A' (List.mem_cons_of_mem _ hA'))
        (fun A' hA' => hab A' (List.mem_cons_of_mem _ hA')) h
    obtain ⟨hbn, hhead⟩ :=
      solveLoopB_none A0 (bRange A0) best (hab A0 (List.mem_cons_self _ _))
        hBnone
    refine ⟨hbn, ?_⟩
    intro A hA B hB C hC
    rcases List.mem_cons.mp hA with hA | hA
    · subst hA
      exact hhead B hB C hC
    · exact hrest A hA B hB C hC

/-- Membership in the `A` sweep. -/
lemma mem_aRange_iff (A : Nat) : A ∈ aRange ↔ 1 ≤ A ∧ A < 20 := by
  rw [aRange, mem_range'_iff]

/-- Membership in the `B` sweep. -/
lemma mem_bRange_iff (A B : Nat) : B ∈ bRange A ↔ A + 1 ≤ B ∧ B < 30 := by
  rw [bRange, mem_range'_iff]
  omega

/-- Membership in the `C` sweep. -/
lemma mem_cRange_iff (A B C : Nat) :
    C ∈ cRange A B ↔ B + 1 ≤ C ∧ C < 50 - A - B := by
  rw [cRange, mem_range'_iff]
  omega

/-- `tripleSpace` holds exactly the triples the three nested loops sweep. -/
lemma mem_tripleSpace (t : Nat × Nat × Nat) :
    t ∈ tripleSpace ↔
      t.1 ∈ aRange ∧ t.2.1 ∈ bRange t.1 ∧ t.2.2 ∈ cRange t.1 t.2.1 := by
  obtain ⟨A, B, C⟩ := t
  simp only [tripleSpace, List.mem_flatMap, List.mem_map]
  constructor
  · rintro ⟨A', hA', B', hB', C', hC', heq⟩
    obtain ⟨rfl, rfl, rfl⟩ : A' = A ∧ B' = B ∧ C' = C := by
      simpa [Prod.ext_iff] using heq
    exact ⟨hA', hB', hC'⟩
  · rintro ⟨hA, hB, hC⟩
    exact ⟨A, hA, B, hB, C, hC, rfl⟩

/-- The `A`-loop break guard never fires on the swept values. -/
lemma aRange_le_target : ∀ A ∈ aRange, A ≤ target := by
  intro A hA
  rw [mem_aRange_iff] at hA
  simp only [target]
  omega

/-- The `B`-loop break guard never fires on the swept values. -/
lemma abRange_le_target : ∀ A ∈ aRange, ∀ B ∈ bRange A, A * B ≤ target := by
  intro A hA B hB
  rw [mem_aRange_iff] at hA
  rw [mem_bRange_iff] at hB
  have h1 : A * B ≤ 19 * 29 := Nat.mul_le_mul (by omega) (by omega)
  simp only [target]
  omega

/-- The nested sweeps only produce triples of `tripleSpace`. -/
lemma sweep_mem_tripleSpace :
    ∀ A ∈ aRange, ∀ B ∈ bRange A, ∀ C ∈ cRange A B, (A, B, C) ∈ tripleSpace := by
  intro A hA B hB C hC
  rw [mem_tripleSpace]
  exact ⟨hA, hB, hC⟩

/-- Every triple of the pruned enumeration space is strictly ordered,
within the loop bounds, and never triggers either break guard. -/
def TriplesInBounds : Prop :=
  ∀ t ∈ tripleSpace,
    1 ≤ t.1 ∧ t.1 < t.2.1 ∧ t.2.1 < t.2.2 ∧ t.1 < 20 ∧ t.2.1 < 30 ∧
    t.2.2 < 50 - t.1 - t.2.1 ∧ t.1 ≤ target ∧ t.1 * t.2.1 ≤ target

/-- The optimizer's result is a success with minimal weight sum over the
pruned space, or the fixed no-solution result when no swept triple
succeeds. -/
def SolveOptimal : Prop :=
  (∀ s, solve = some s →
    GoodSol s ∧ (s.A, s.B, s.C) ∈ tripleSpace ∧
    ∀ t ∈ tripleSpace, tripleSucceeds t = true → sumOf s ≤ tripleSum t) ∧
  (solve = none →
    (∀ t ∈ tripleSpace, tripleSucceeds t = false) ∧
    solve_output = "No solution found")

/-- C2: the optimizer attempts exactly the strictly ordered triples of its
pruned ranges (never tripping the break guards), keeps searching past the
first success (skipping only triples whose sum is not strictly below the
best sum so far), and returns a minimal-sum double success from the pruned
space, or the fixed no-solution result if there is none. -/
theorem solve_minimal_sum_or_notfound : TriplesInBounds ∧ SolveOptimal := by
  constructor
  · intro t ht
    rw [mem_tripleSpace] at ht
    obtain ⟨hA, hB, hC⟩ := ht
    have hab := abRange_le_target t.1 hA t.2.1 hB
    have ha := aRange_le_target t.1 hA
    rw [mem_aRange_iff] at hA
    rw [mem_bRange_iff] at hB
    rw [mem_cRange_iff] at hC
    exact ⟨by omega, by omega, by omega, by omega, by omega, by omega, ha, hab⟩
  · constructor
    · intro s hs
      have hs' : solveLoopA none aRange = some s := hs
      obtain ⟨hgood, hmem⟩ :=
        solveLoopA_ok aRange none aRange_le_target abRange_le_target
          sweep_mem_tripleSpace (fun s' h => Option.noConfusion h) s hs'
      refine ⟨hgood, hmem, ?_⟩
      intro t ht hsucc
      rw [mem_tripleSpace] at ht
      obtain ⟨hA, hB, hC⟩ := ht
      obtain ⟨s1, hs1, hle⟩ :=
        solveLoopA_min aRange none t.1 t.2.1 t.2.2 aRange_le_target
          abRange_le_target hA hB hC (by
            have : (t.1, t.2.1, t.2.2) = t := rfl
            rw [this]
            exact hsucc)
      rw [hs'] at hs1
      injection hs1 with hs1
      subst hs1
      exact hle
    · intro h
      have h' : solveLoopA none aRange = none := h
      obtain ⟨_, hfail⟩ :=
        solveLoopA_none aRange none aRange_le_target abRange_le_target h'
      constructor
      · intro t ht
        rw [mem_tripleSpace] at ht
        obtain ⟨hA, hB, hC⟩ := ht
        have := hfail t.1 hA t.2.1 hB t.2.2 hC
        have ht' : (t.1, t.2.1, t.2.2) = t := rfl
        rw [ht'] at this
        exact this
      · show solve_output_of solve = "No solution found"
        rw [h]
        rfl

/-! ### Claim theorems -/

/-- All 36 positions of the 6×6 grid, row major. -/
def allPositions : List Pos :=
  (List.range 6).flatMap (fun i => (List.range 6).map (fun j => (i, j)))

/-- Modelled from the spec (§4.1): the eight knight offsets
`{(±2,±1),(±1,±2)}`. -/
def specOffsets : List (Int × Int) :=
  [(2,1), (2,-1), (-2,1), (-2,-1), (1,2), (1,-2), (-1,2), (-1,-2)]

/-- Modelled from the spec: `q` is obtained from `p` by one of the eight
knight offsets. -/
def isKnightNeighbor (p q : Pos) : Bool :=
  specOffsets.any (fun d =>
    ((q.1 : Int) == (p.1 : Int) + d.1) && ((q.2 : Int) == (p.2 : Int) + d.2))

/-- C6: for every grid position, the precomputed table holds exactly the
set of in-bounds knight-offset destinations; in particular the neighbours
of `(0,0)` are exactly `{(1,2),(2,1)}` and `(2,2)` has 8 neighbours. -/
theorem knight_move_table_exact :
    ∀ p ∈ allPositions,
      (knightMoves p).toFinset =
        (allPositions.filter (fun q => isKnightNeighbor p q)).toFinset ∧
      (knightMoves (0, 0)).toFinset = ({(1, 2), (2, 1)} : Finset Pos) ∧
      (knightMoves (2, 2)).length = 8 := by decide

/-- Witness for C6, at the corner position `(0,0)`. -/
theorem knight_move_table_exact_witness :
    (knightMoves (0, 0)).toFinset =
      (allPositions.filter (fun q => isKnightNeighbor (0, 0) q)).toFinset ∧
    (knightMoves (0, 0)).toFinset = ({(1, 2), (2, 1)} : Finset Pos) ∧
    (knightMoves (2, 2)).length = 8 :=
  knight_move_table_exact (0, 0) (by decide)

/-- Modelled from the spec (§4.5): the token of a position — the letter at
alphabet index `col` starting from `'a'`, then the number `6 - row`. -/
def specToken (p : Pos) : String :=
  String.mk [Char.ofNat ('a'.toNat + p.2)] ++ toString (6 - p.1)

/-- C9: `format_path` comma-joins the algebraic token of each position
(with the three pinned examples), and `format_solution` is
`"A,B,C,"` followed by the two formatted paths, comma separated. -/
theorem format_path_algebraic :
    (∀ path : List Pos,
      format_path path = String.intercalate "," (path.map specToken)) ∧
    format_path [(5, 0)] = "a1" ∧
    format_path [(0, 5)] = "f6" ∧
    format_path [(5, 0), (3, 1)] = "a1,b3" ∧
    (∀ (A B C : Nat) (p1 p2 : List Pos),
      format_solution A B C p1 p2 =
        toString A ++ "," ++ toString B ++ "," ++ toString C ++ "," ++
          format_path p1 ++ "," ++ format_path p2) :=
  ⟨fun _ => rfl, rfl, rfl, rfl, fun _ _ _ _ _ => rfl⟩

/-- Witness for C9, at the pinned single-position example. -/
theorem format_path_algebraic_witness :
    format_path [(5, 0)] = String.intercalate "," ([((5 : Nat), (0 : Nat))].map specToken) :=
  format_path_algebraic.1 [(5, 0)]

/-- C3: on a non-empty path, `calculate_score` run with an empty cache
computes the spec's early-exit fold — start from the first position's
weight, add on equal consecutive classes, multiply otherwise, and return
as soon as the running score exceeds the target. -/
theorem calculate_score_is_early_exit_fold :
    ∀ (path : List Pos) (v : Weights), path ≠ [] →
      (calculate_score_cached [] path v).1 = specScoreEarly path v ∧
      calculate_score path v = specScoreEarly path v := by
  intro path v _
  have hpure : calculate_score path v = specScoreEarly path v :=
    calculate_score_eq_spec path v
  have hcached : (calculate_score_cached [] path v).1 = calculate_score path v :=
    (calculate_score_cached_spec v [] path (consistent_nil v)).1
  exact ⟨hcached.trans hpure, hpure⟩

/-- Witness for C3, on the one-position path at a1. -/
theorem calculate_score_is_early_exit_fold_witness :
    (calculate_score_cached [] [(5, 0)] ⟨1, 2, 3⟩).1 =
      specScoreEarly [(5, 0)] ⟨1, 2, 3⟩ ∧
    calculate_score [(5, 0)] ⟨1, 2, 3⟩ = specScoreEarly [(5, 0)] ⟨1, 2, 3⟩ :=
  calculate_score_is_early_exit_fold [(5, 0)] ⟨1, 2, 3⟩ (by decide)

/-- C4: with positive weights the exact fold score is monotone in the
prefix length once it exceeds the target — so a partial path whose score
exceeds the target can never extend to one scoring exactly the target. -/
theorem score_monotone_beyond_target (v : Weights)
    (hA : 1 ≤ v.A) (hB : 1 ≤ v.B) (hC : 1 ≤ v.C)
    (path : List Pos) (m n : Nat) (hmn : m ≤ n)
    (h : target < exact_score (path.take m) v) :
    target < exact_score (path.take n) v :=
  exact_score_take_mono v hA hB hC path m n hmn h

/-- Witness for C4: a two-step path whose one-position prefix already
exceeds the target. -/
theorem score_monotone_beyond_target_witness :
    target < exact_score ([(0, 0), (0, 1)].take 2) ⟨3000, 3001, 3002⟩ :=
  score_monotone_beyond_target ⟨3000, 3001, 3002⟩ (by decide) (by decide)
    (by decide) [(0, 0), (0, 1)] 1 2 (by decide) (by decide)

/-- C5 counterexample: the claim quantifies over every possible prior
cache content, but a cache entry recorded under different weights is
returned as-is, so the result is not independent of cache state. -/
theorem score_cache_dependence_counterexample :
    (calculate_score_cached [([(0, 0)], 999)] [(0, 0)] ⟨1, 2, 3⟩).1 ≠
      (calculate_score_cached [] [(0, 0)] ⟨1, 2, 3⟩).1 := by decide

/-- C5 (amended): two invocations on identical inputs agree — the second
call, run on the cache the first one left, returns the same value for any
prior cache — and the result equals the empty-cache result for every prior
cache whose entries all record the score of their path under the current
weights. -/
theorem score_pure_on_consistent_cache :
    (∀ (c : Cache) (path : List Pos) (v : Weights),
      (calculate_score_cached (calculate_score_cached c path v).2 path v).1 =
        (calculate_score_cached c path v).1) ∧
    (∀ (c : Cache) (path : List Pos) (v : Weights), ConsistentCache v c →
      (calculate_score_cached c path v).1 =
        (calculate_score_cached [] path v).1) := by
  constructor
  · intro c path v
    cases hl : cacheLookup c path with
    | some n => simp [calculate_score_cached, hl]
    | none => simp [calculate_score_cached, hl, cacheLookup]
  · intro c path v hc
    have h1 := (calculate_score_cached_spec v c path hc).1
    have h2 := (calculate_score_cached_spec v [] path (consistent_nil v)).1
    rw [h1, h2]

/-- Witness for C5 (amended), with a consistent one-entry cache. -/
theorem score_pure_on_consistent_cache_witness :
    ConsistentCache ⟨1, 2, 3⟩ [([(0, 0)], 1)] ∧
    (calculate_score_cached [([(0, 0)], 1)] [(5, 5)] ⟨1, 2, 3⟩).1 =
      (calculate_score_cached [] [(5, 5)] ⟨1, 2, 3⟩).1 := by
  have hc : ConsistentCache ⟨1, 2, 3⟩ [([(0, 0)], 1)] := by
    intro e he
    simp only [List.mem_singleton] at he
    subst he
    rfl
  exact ⟨hc, score_pure_on_consistent_cache.2 [([(0, 0)], 1)] [(5, 5)] ⟨1, 2, 3⟩ hc⟩

/-- C1: any path returned by `find_path` (run, as always, from an empty
score cache) with positive weights begins at `start`, ends at `end`, has
no repeated position, steps only along precomputed knight moves, and its
exact fold score equals the target 2024. -/
theorem find_path_sound :
    ∀ (s e : Pos) (v : Weights), 1 ≤ v.A → 1 ≤ v.B → 1 ≤ v.C →
    ∀ p, find_path s e v = some p →
      p.head? = some s ∧ p.getLast? = some e ∧ p.Nodup ∧
      p.Chain' (fun a b => b ∈ knightMoves a) ∧
      exact_score p v = target ∧ target = 2024 := by
  intro s e v _ _ _ p hp
  obtain ⟨d, _, hdfs⟩ := List.exists_of_findSome?_eq_some hp
  obtain ⟨hhead, hlast, hchain, hnodup, hscore⟩ :=
    dfs_sound e v (d + 1) s [s] [s] p (by simp) (List.chain'_singleton _)
      (List.nodup_singleton _) (fun x => Iff.rfl) hdfs
  refine ⟨by simpa using hhead, hlast, hnodup, hchain, ?_, rfl⟩
  rw [← calculate_score_eq_exact_of_le p v (le_of_eq hscore)]
  exact hscore

/-- Witness for C1: with weights `(2024, 2025, 2026)` the one-position
path from a6 to itself scores exactly the target. -/
theorem find_path_sound_witness :
    ([((0 : Nat), (0 : Nat))] : List Pos).head? = some (0, 0) ∧
    ([((0 : Nat), (0 : Nat))] : List Pos).getLast? = some (0, 0) ∧
    ([((0 : Nat), (0 : Nat))] : List Pos).Nodup ∧
    ([((0 : Nat), (0 : Nat))] : List Pos).Chain' (fun a b => b ∈ knightMoves a) ∧
    exact_score [(0, 0)] ⟨2024, 2025, 2026⟩ = target ∧ target = 2024 :=
  find_path_sound (0, 0) (0, 0) ⟨2024, 2025, 2026⟩ (by decide) (by decide)
    (by decide) [(0, 0)] (by decide)

/-- C7: `find_path` is iterative deepening over maximum depths 4 through
11: it returns `none` exactly when every round fails, and any returned
path has at most 12 positions. -/
theorem find_path_iterative_deepening :
    ∀ (s e : Pos) (v : Weights),
      (find_path s e v = none ↔
        ∀ d ∈ List.range' 4 8, dfs e v (d + 1) s [s] [s] = none) ∧
      (∀ p, find_path s e v = some p → p.length ≤ 12) := by
  intro s e v
  constructor
  · show (List.range' 4 8).findSome?
        (fun d => dfs e v (d + 1) s [s] [s]) = none ↔ _
    exact List.findSome?_eq_none_iff
  · intro p hp
    obtain ⟨d, hd, hdfs⟩ := List.exists_of_findSome?_eq_some hp
    have hlen := dfs_length e v (d + 1) s [s] [s] p hdfs
    rw [mem_range'_iff] at hd
    simp only [List.length_singleton] at hlen
    omega

/-- Witness for C7: a successful one-position search, well within the
length bound. -/
theorem find_path_iterative_deepening_witness :
    find_path (0, 0) (0, 0) ⟨2024, 1, 1⟩ = some [(0, 0)] ∧
    ([((0 : Nat), (0 : Nat))] : List Pos).length ≤ 12 := by
  have h : find_path (0, 0) (0, 0) ⟨2024, 1, 1⟩ = some [(0, 0)] := by decide
  exact ⟨h, (find_path_iterative_deepening (0, 0) (0, 0) ⟨2024, 1, 1⟩).2 [(0, 0)] h⟩

/-- C10: when `start ≠ end`, any returned path visits `end` exactly once,
as its final position — the search stops at `end` and never walks through
it. -/
theorem find_path_end_interior_free :
    ∀ (s e : Pos) (v : Weights), s ≠ e →
    ∀ p, find_path s e v = some p →
      p.count e = 1 ∧ p.getLast? = some e := by
  intro s e v _ p hp
  obtain ⟨d, _, hdfs⟩ := List.exists_of_findSome?_eq_some hp
  exact dfs_end_once e v (d + 1) s [s] [s] p (by simp) (by simp) hdfs

/-- Witness for C10: a two-position path from a6 to c5 under weights
`(2024, 1, 5)`. -/
theorem find_path_end_interior_free_witness :
    ([((0 : Nat), (0 : Nat)), ((1 : Nat), (2 : Nat))] : List Pos).count (1, 2) = 1 ∧
    ([((0 : Nat), (0 : Nat)), ((1 : Nat), (2 : Nat))] : List Pos).getLast? = some (1, 2) :=
  find_path_end_interior_free (0, 0) (1, 2) ⟨2024, 1, 5⟩ (by decide)
    [(0, 0), (1, 2)] (by decide)

/-- C8: clearing gives a consistent cache; reading and writing through a
consistent cache returns pure scores and preserves consistency, for the
scorer and for whole searches; and since the optimizer clears the cache
before each attempted triple, the cache-threaded optimizer equals the
cache-free one — no score read ever comes from another weight
assignment. -/
theorem cache_cleared_per_triple :
    (∀ v : Weights, ConsistentCache v []) ∧
    (∀ (v : Weights) (c : Cache) (path : List Pos), ConsistentCache v c →
      (calculate_score_cached c path v).1 = calculate_score path v ∧
      ConsistentCache v (calculate_score_cached c path v).2) ∧
    (∀ (v : Weights) (c : Cache) (s e : Pos), ConsistentCache v c →
      (find_path_cached s e v c).1 = find_path s e v ∧
      ConsistentCache v (find_path_cached s e v c).2) ∧
    solve_cached = solve :=
  ⟨consistent_nil,
   fun v c path hc => calculate_score_cached_spec v c path hc,
   fun v c s e hc => find_path_cached_spec s e v c hc,
   solve_cached_eq⟩

/-- Witness for C8: the cleared cache is consistent, and a search from it
returns the cache-free result. -/
theorem cache_cleared_per_triple_witness :
    ConsistentCache ⟨1, 2, 3⟩ [] ∧
    ((find_path_cached (0, 0) (1, 2) ⟨3000, 3000, 3000⟩ []).1 =
      find_path (0, 0) (1, 2) ⟨3000, 3000, 3000⟩ ∧
     ConsistentCache ⟨3000, 3000, 3000⟩
       (find_path_cached (0, 0) (1, 2) ⟨3000, 3000, 3000⟩ []).2) :=
  ⟨cache_cleared_per_triple.1 ⟨1, 2, 3⟩,
   cache_cleared_per_triple.2.2.1 ⟨3000, 3000, 3000⟩ [] (0, 0) (1, 2)
     (consistent_nil _)⟩

/-- Witness for C2: the first swept triple `(1, 2, 3)` satisfies all the
enumeration bounds. -/
theorem solve_minimal_sum_or_notfound_witness :
    1 ≤ (1 : Nat) ∧ (1 : Nat) < 2 ∧ (2 : Nat) < 3 ∧ (1 : Nat) < 20 ∧
    (2 : Nat) < 30 ∧ (3 : Nat) < 50 - 1 - 2 ∧ (1 : Nat) ≤ target ∧
    (1 : Nat) * 2 ≤ target :=
  solve_minimal_sum_or_notfound.1 (1, 2, 3) (by decide)
